import Mathlib

/-!
Verification of the stealth-address core described by the repository
specification against the code in `src/src/stealth.h`.

The header provides full bodies only for the endian conversion templates
(`from_big_endian`, `from_little_endian`, `to_big_endian`, `to_little_endian`);
those are embedded directly from the source.  All other operations are only
declared in the header, so they are modelled from the specification text, as
noted on each definition.

Representation choices:
* bytes and fixed-width integers are `Nat` with explicit `% 2 ^ w`;
* an `ec_secret` scalar is a `Nat` (value of its 32-byte big-endian bytes);
* an `ec_point` in the secp256k1 group generated by `G` is represented by its
  discrete logarithm base `G`, a `Nat` below the (prime) group order, with `0`
  standing for the point at infinity.  Since the group is cyclic of prime
  order, this representation is an exact isomorphic model of the group that
  the specification treats as a black box: `G·s` is `s % order`, point
  addition is addition mod the order, and scalar multiplication of a point is
  multiplication mod the order;
* SHA-256 and the double-SHA-256 `bitcoin_hash` are out of scope per the
  specification ("this core consumes ... as trusted black-box operations"),
  so every definition that hashes takes the hash function as a parameter;
* encoded addresses (`std::string`) are `List Char`.
-/

/-- Order of the secp256k1 group (a prime); scalars are valid when nonzero
and below this bound. -/
def secp_order : Nat :=
  0xFFFFFFFFFFFFFFFFFFFFFFFFFFFFFFFEBAAEDCE6AF48A03BBFDF2E8CD0364141

/-- A scalar is valid when it is nonzero and below the group order
(spec section 3: "must be nonzero and less than the group order"). -/
abbrev valid_secret (s : Nat) : Prop := 0 < s ∧ s < secp_order

/-- `stealth_version_byte = 0x2a` from the source header. -/
def stealth_version_byte : Nat := 0x2a

/-- `payment_address::pubkey_version` (production table) from the source header. -/
def pubkey_version : Nat := 0x41

/-- `payment_address::script_version` (production table) from the source header. -/
def script_version : Nat := 0xb2

/-- `payment_address::wif_version` (production table) from the source header. -/
def wif_version : Nat := 0xc1

/-- `payment_address::invalid_version` (production table) from the source header. -/
def invalid_version : Nat := 0xff

/-- `null_short_hash` from the source header: twenty zero bytes. -/
def null_short_hash : List Nat := List.replicate 20 0

/-! ## Endian conversions (bodies present in the source header)

`from_little_endian<T>` runs `out |= in[i] << (8 * i)` for `i` from `0` to
`sizeof(T) - 1`; `from_big_endian<T>` runs `out |= in[j] << (8 * --i)` with
`i` starting at `sizeof(T)`.  The loops are embedded as tail-recursive
functions over the remaining iteration count; `k` stands for `sizeof(T)`. -/

/-- Loop of `from_little_endian` (source lines 61-70): `out` is the
accumulator, `i` the current byte index, `r` the remaining iterations. -/
def from_le_loop (out i r : Nat) (bs : List Nat) : Nat :=
  match r, bs with
  | 0, _ => out
  | _ + 1, [] => out
  | r' + 1, b :: rest => from_le_loop (out ||| (b <<< (8 * i))) (i + 1) r' rest

/-- `from_little_endian<T>` from the source, with `k = sizeof(T)`. -/
def from_little_endian (k : Nat) (bs : List Nat) : Nat := from_le_loop 0 0 k bs

/-- Loop of `from_big_endian` (source lines 50-59): `out` is the accumulator
and `i` the loop counter that starts at `sizeof(T)` and is pre-decremented to
produce the shift amount. -/
def from_be_loop (out i : Nat) (bs : List Nat) : Nat :=
  match i, bs with
  | 0, _ => out
  | _ + 1, [] => out
  | i' + 1, b :: rest => from_be_loop (out ||| (b <<< (8 * i'))) i' rest

/-- `from_big_endian<T>` from the source, with `k = sizeof(T)`. -/
def from_big_endian (k : Nat) (bs : List Nat) : Nat := from_be_loop 0 k bs

/-- `to_big_endian<T>` from the source (lines 72-83): fills the output array
from the last position backwards with `*i = n; n >>= 8`, so the low byte of
`n` lands at the end. -/
def to_big_endian : Nat → Nat → List Nat
  | 0, _ => []
  | k + 1, n => to_big_endian k (n >>> 8) ++ [n % 256]

/-- `to_little_endian<T>` from the source (lines 85-96): fills the output
array from the front with `*i = n; n >>= 8`. -/
def to_little_endian : Nat → Nat → List Nat
  | 0, _ => []
  | k + 1, n => n % 256 :: to_little_endian k (n >>> 8)

/-! ## EC primitive layer (declarations only in the source; modelled from
spec section 4.1 over the discrete-log representation of points) -/

/-- Modelled from the spec: `secret_to_public_key` / `G·s` — the public point
of scalar `s`, in discrete-log representation `s % secp_order`. -/
def g_mul (s : Nat) : Nat := s % secp_order

/-- Modelled from the spec: `ec_multiply(point, scalar)` — "multiply `point`
in place by `scalar`; returns false if the result is the point at infinity or
inputs are invalid (point not on curve, scalar out of range); must not mutate
`point` on failure."  The in-place update is state passing: the returned pair
is (success flag, new point value). -/
def ec_multiply (a : Nat) (b : Nat) : Bool × Nat :=
  if b = 0 ∨ secp_order ≤ b ∨ secp_order ≤ a then (false, a)
  else
    let r := (b * a) % secp_order
    if r = 0 then (false, a) else (true, r)

/-- Modelled from the spec: `ec_tweak_add(point, scalar)` — "adds `scalar·G`
to `point` in place; same validity/failure rule" as `ec_multiply`. -/
def ec_tweak_add (a : Nat) (b : Nat) : Bool × Nat :=
  if b = 0 ∨ secp_order ≤ b ∨ secp_order ≤ a then (false, a)
  else
    let r := (a + b) % secp_order
    if r = 0 then (false, a) else (true, r)

/-- Modelled from the spec: `ec_add(secretA, secretB)` — "modular addition of
two scalars mod group order, in place on `secretA`; fails if the result would
be zero (degenerate key)." -/
def ec_add (a : Nat) (b : Nat) : Bool × Nat :=
  let r := (a + b) % secp_order
  if r = 0 then (false, a) else (true, r)

/-- Modelled from the spec: `shared_secret(secret, point)` — "multiply `point`
by `secret`, then hash the resulting point's encoding (compressed) with
SHA-256".  The hash of the point encoding is the black-box parameter `H`. -/
def shared_secret (H : Nat → Nat) (secret : Nat) (point : Nat) : Nat :=
  H ((secret * point) % secp_order)

/-- Modelled from the spec: sender-side `initiate_stealth` (spec section 4.5):
`shared = shared_secret(ephem_secret, scan_pubkey)`, then tweak-add `shared`
onto `spend_pubkey`; a tweak failure propagates as an error (`none`). -/
def initiate_stealth (H : Nat → Nat) (ephem_secret scan_pubkey spend_pubkey : Nat) :
    Option Nat :=
  let shared := shared_secret H ephem_secret scan_pubkey
  match ec_tweak_add spend_pubkey shared with
  | (true, dest) => some dest
  | (false, _) => none

/-- Modelled from the spec: recipient-side `uncover_stealth` (spec section
4.5): `shared = shared_secret(scan_secret, ephem_pubkey)`, then tweak-add
`shared` onto `spend_pubkey`. -/
def uncover_stealth (H : Nat → Nat) (ephem_pubkey scan_secret spend_pubkey : Nat) :
    Option Nat :=
  let shared := shared_secret H scan_secret ephem_pubkey
  match ec_tweak_add spend_pubkey shared with
  | (true, dest) => some dest
  | (false, _) => none

/-- Modelled from the spec: recipient-side `uncover_stealth_secret` (spec
section 4.5): "computes the same `shared`, then `ec_add(spend_secret, shared)`
to yield the one-time private key". -/
def uncover_stealth_secret (H : Nat → Nat) (ephem_pubkey scan_secret spend_secret : Nat) :
    Option Nat :=
  let shared := shared_secret H scan_secret ephem_pubkey
  match ec_add spend_secret shared with
  | (true, k) => some k
  | (false, _) => none

/-! ## Checksum layer (declarations only in the source; modelled from spec
section 4.3).  `bh` stands for the black-box `bitcoin_hash` (double SHA-256,
32-byte output). -/

/-- Modelled from the spec: the 4-byte checksum, "the first 4 bytes of
`bitcoin_hash(data)`". -/
def checksum_bytes (bh : List Nat → List Nat) (data : List Nat) : List Nat :=
  (bh data).take 4

/-- Modelled from the spec: `append_checksum(data)` appends the checksum to
`data`. -/
def append_checksum (bh : List Nat → List Nat) (data : List Nat) : List Nat :=
  data ++ checksum_bytes bh data

/-- Modelled from the spec: `verify_checksum(data)` "recomputes the checksum
over all bytes except the last 4 and compares; returns false on any length
less than 4 or mismatch". -/
def verify_checksum (bh : List Nat → List Nat) (data : List Nat) : Bool :=
  if data.length < 4 then false
  else decide (data.drop (data.length - 4) = checksum_bytes bh (data.take (data.length - 4)))

/-- A well-formed `bitcoin_hash` black box: 32 output bytes, each a byte. -/
abbrev valid_hash_fn (bh : List Nat → List Nat) : Prop :=
  ∀ x, (bh x).length = 32 ∧ ∀ b ∈ bh x, b < 256

/-! ## Base58Check codec (declarations only in the source, except for the
alphabet constant; modelled from spec section 4.3) -/

/-- The `base58_chars` alphabet from the source header. -/
def base58_chars : List Char :=
  ['1', '2', '3', '4', '5', '6', '7', '8', '9',
   'A', 'B', 'C', 'D', 'E', 'F', 'G', 'H', 'J', 'K', 'L', 'M', 'N',
   'P', 'Q', 'R', 'S', 'T', 'U', 'V', 'W', 'X', 'Y', 'Z',
   'a', 'b', 'c', 'd', 'e', 'f', 'g', 'h', 'i', 'j', 'k', 'm', 'n',
   'o', 'p', 'q', 'r', 's', 't', 'u', 'v', 'w', 'x', 'y', 'z']

/-- `is_base58(char)` from the source: membership in the fixed alphabet. -/
def is_base58 (c : Char) : Bool := base58_chars.contains c

/-- The alphabet character of digit `d` (`d < 58`). -/
def base58_digit_char (d : Nat) : Char := base58_chars.getD d '1'

/-- The digit of an alphabet character (first index in the alphabet). -/
def base58_char_index (c : Char) : Nat := base58_chars.findIdx (· == c)

/-- Little-endian base-`b` digits of `n`, with explicit fuel so the
definition is structurally recursive (the fuel is enough when `n ≤ fuel`). -/
def toDigitsFuel (b : Nat) : Nat → Nat → List Nat
  | 0, _ => []
  | fuel + 1, n => if n = 0 then [] else n % b :: toDigitsFuel b fuel (n / b)

/-- The value of a big-endian byte string. -/
def bytes_to_nat (data : List Nat) : Nat := Nat.ofDigits 256 data.reverse

/-- Number of leading zero bytes of a byte string. -/
def leading_zero_bytes : List Nat → Nat
  | [] => 0
  | b :: rest => if b = 0 then leading_zero_bytes rest + 1 else 0

/-- Number of leading `'1'` characters of a base58 string. -/
def leading_one_chars : List Char → Nat
  | [] => 0
  | c :: rest => if c = '1' then leading_one_chars rest + 1 else 0

/-- Modelled from the spec: base58 encoding — "maps the result through
base-58 using the fixed alphabet, with leading-zero-byte preservation (each
leading zero byte maps to a leading `'1'`)". -/
def encode_base58 (data : List Nat) : List Char :=
  let n := bytes_to_nat data
  List.replicate (leading_zero_bytes data) '1' ++
    (toDigitsFuel 58 n n).reverse.map base58_digit_char

/-- Modelled from the spec: base58 decoding — "inverse mapping; fails if any
character is outside the alphabet", with each leading `'1'` restored as a
leading zero byte. -/
def decode_base58 (text : List Char) : Option (List Nat) :=
  if text.all is_base58 then
    let n := text.foldl (fun acc c => acc * 58 + base58_char_index c) 0
    some (List.replicate (leading_one_chars text) 0 ++ (toDigitsFuel 256 n n).reverse)
  else none

/-! ## Address data model (declarations only in the source; layouts modelled
from spec sections 4.4 and 6) -/

/-- `payment_address` data (source lines 184-218): a version byte and a
20-byte short hash. -/
structure payment_address where
  version_ : Nat
  hash_ : List Nat
deriving DecidableEq

/-- A default-constructed `payment_address` (source lines 216-217): the
invalid version sentinel and the null hash). -/
def payment_address_default : payment_address :=
  ⟨invalid_version, null_short_hash⟩

/-- `payment_address::set(version, hash)` overwrites both fields. -/
def payment_set (version : Nat) (hash : List Nat) : payment_address :=
  ⟨version, hash⟩

/-- A valid `payment_address` value: a byte version and twenty hash bytes. -/
abbrev valid_payment (a : payment_address) : Prop :=
  a.version_ < 256 ∧ a.hash_.length = 20 ∧ ∀ b ∈ a.hash_, b < 256

/-- Modelled from the spec: `payment_address::encoded()` — base58check of
`version || hash` (spec section 6: `version_byte(1) || short_hash(20) ||
checksum(4)`). -/
def payment_encoded (bh : List Nat → List Nat) (a : payment_address) : List Char :=
  encode_base58 (append_checksum bh (a.version_ :: a.hash_))

/-- Modelled from the spec: `payment_address::set_encoded` — "decodes via the
codec; on success splits payload into 1-byte version + 20-byte hash; rejects
payloads of the wrong total length, leaving the address at the invalid
sentinel".  In-place mutation is state passing: the result pair is (success
flag, new address value), the input address returned unchanged on failure. -/
def payment_set_encoded (bh : List Nat → List Nat) (a : payment_address)
    (text : List Char) : Bool × payment_address :=
  match decode_base58 text with
  | none => (false, a)
  | some bytes =>
    if bytes.length = 25 then
      if verify_checksum bh bytes then
        (true, ⟨bytes.getD 0 0, (bytes.drop 1).take 20⟩)
      else (false, a)
    else (false, a)

/-- `stealth_prefix` from the source header (lines 106-110). -/
structure stealth_prefix where
  number_bits : Nat
  bitfield : Nat
deriving DecidableEq

/-- `stealth_address` data from the source header (lines 112-128). -/
structure stealth_address where
  options : Nat
  scan_pubkey : List Nat
  spend_pubkeys : List (List Nat)
  number_signatures : Nat
  pfx : stealth_prefix
deriving DecidableEq

/-- A default-constructed `stealth_address` (source lines 123-127): zero
options, empty keys, zero threshold, zero bit-prefix filter. -/
def stealth_address_default : stealth_address := ⟨0, [], [], 0, ⟨0, 0⟩⟩

/-- A valid `stealth_address` value: byte-sized fields, a 33-byte compressed
scan pubkey, between 1 and 255 spend pubkeys of 33 bytes each, a threshold
not exceeding the spend-pubkey count, and a 32-bit bitfield. -/
abbrev valid_stealth (sa : stealth_address) : Prop :=
  match sa with
  | ⟨opts, scan, spends, nsig, ⟨nbits, bits⟩⟩ =>
    opts < 256 ∧ scan.length = 33 ∧ (∀ b ∈ scan, b < 256) ∧
    1 ≤ spends.length ∧ spends.length < 256 ∧
    (∀ p ∈ spends, p.length = 33 ∧ ∀ b ∈ p, b < 256) ∧
    nsig ≤ spends.length ∧ nsig < 256 ∧ nbits < 256 ∧ bits < 2 ^ 32

/-- Reads `count` compressed (33-byte) pubkeys from the byte stream,
returning them with the unread remainder; fails if the stream is short. -/
def parse_points : Nat → List Nat → Option (List (List Nat) × List Nat)
  | 0, bs => some ([], bs)
  | count + 1, bs =>
    if bs.length < 33 then none
    else
      match parse_points count (bs.drop 33) with
      | none => none
      | some (points, rest) => some (bs.take 33 :: points, rest)

/-- Modelled from the spec: the stealth payload parser behind
`stealth_address::set_encoded` (spec section 6 layout: `version_byte(1) ||
options(1) || scan_pubkey(33) || spend_count(1) || spend_pubkeys(33 x N) ||
signature_threshold(1) || prefix_bits(1) || prefix_bitfield(4)`), validating
the fixed version byte, the declared spend count against the bytes actually
present, and the threshold against the count (spec: "Decoding must validate
internal consistency ... and reject otherwise").  The 4-byte bitfield is read
big-endian (the spec leaves the convention open; one is fixed here and used
consistently by the encoder). -/
def parse_stealth (body : List Nat) : Option stealth_address :=
  match body with
  | version :: opts :: rest =>
    if version = stealth_version_byte then
      if rest.length < 34 then none
      else
        match rest.drop 33 with
        | count :: rest2 =>
          match parse_points count rest2 with
          | none => none
          | some (spends, rest3) =>
            match rest3 with
            | threshold :: nbits :: rest4 =>
              if rest4.length = 4 ∧ threshold ≤ count then
                some ⟨opts, rest.take 33, spends, threshold,
                  ⟨nbits, from_big_endian 4 rest4⟩⟩
              else none
            | _ => none
        | [] => none
    else none
  | _ => none

/-- Modelled from the spec: `stealth_address::encoded()` — base58check of the
spec section 6 payload layout (see `parse_stealth`). -/
def stealth_encoded (bh : List Nat → List Nat) (sa : stealth_address) : List Char :=
  match sa with
  | ⟨opts, scan, spends, nsig, ⟨nbits, bits⟩⟩ =>
    encode_base58 (append_checksum bh
      (stealth_version_byte :: opts ::
        (scan ++ (spends.length :: spends.flatten) ++
          (nsig :: nbits :: to_big_endian 4 bits))))

/-- Modelled from the spec: `stealth_address::set_encoded` — base58 decode,
checksum verification, then payload parsing; any failure returns `false` and
leaves the address unchanged. -/
def stealth_set_encoded (bh : List Nat → List Nat) (sa : stealth_address)
    (text : List Char) : Bool × stealth_address :=
  match decode_base58 text with
  | none => (false, sa)
  | some bytes =>
    if verify_checksum bh bytes then
      match parse_stealth (bytes.take (bytes.length - 4)) with
      | some a => (true, a)
      | none => (false, sa)
    else (false, sa)

/-- Modelled from the spec: `secret_to_wif(secret, compressed)` — base58check
of `version_byte(1) || secret(32) || [0x01 if compressed](0 or 1) ||
checksum(4)` with the network WIF version byte. -/
def secret_to_wif (bh : List Nat → List Nat) (secret : List Nat)
    (compressed : Bool) : List Char :=
  encode_base58 (append_checksum bh
    (wif_version :: (secret ++ (if compressed then [1] else []))))

/-- Modelled from the spec: the WIF decoder ("decoders must use its
presence/absence to infer the intended public-key form", spec section 4.4):
base58 decode, checksum verification, version-byte check, then the payload is
a 32-byte secret, optionally followed by a trailing `0x01` marking the
compressed form. -/
def wif_to_secret (bh : List Nat → List Nat) (text : List Char) :
    Option (List Nat × Bool) :=
  match decode_base58 text with
  | none => none
  | some bytes =>
    if verify_checksum bh bytes then
      match bytes.take (bytes.length - 4) with
      | version :: rest =>
        if version = wif_version then
          if rest.length = 32 then some (rest, false)
          else if rest.length = 33 ∧ rest.getLast? = some 1 then
            some (rest.take 32, true)
          else none
        else none
      | [] => none
    else none

/-! ## Bit-level helper lemmas -/

theorem lor_shiftLeft_distrib (x y s : Nat) :
    (x ||| y) <<< s = (x <<< s) ||| (y <<< s) := by
  apply Nat.eq_of_testBit_eq
  intro i
  simp [Nat.testBit_shiftLeft, Nat.testBit_or, Bool.and_or_distrib_left]

theorem byte_split (m a : Nat) :
    (m % 2 ^ 8) ||| (((m >>> 8) % 2 ^ a) <<< 8) = m % 2 ^ (8 + a) := by
  apply Nat.eq_of_testBit_eq
  intro i
  simp only [Nat.testBit_or, Nat.testBit_mod_two_pow, Nat.testBit_shiftLeft,
    Nat.testBit_shiftRight]
  by_cases h : i < 8
  · simp [h, (by omega : i < 8 + a), (by omega : ¬ (8 ≤ i))]
  · have h2 : 8 + (i - 8) = i := by omega
    rw [h2]
    by_cases h3 : i < 8 + a
    · simp [h, (by omega : 8 ≤ i), h3, (by omega : i - 8 < a)]
    · simp [h, (by omega : 8 ≤ i), h3]
      intro hc
      exact absurd hc (by omega)

theorem lor_low_mod {b s : Nat} (m : Nat) (hb : b < 2 ^ s) :
    (b ||| (m <<< s)) % 2 ^ s = b := by
  apply Nat.eq_of_testBit_eq
  intro i
  simp only [Nat.testBit_mod_two_pow, Nat.testBit_or, Nat.testBit_shiftLeft]
  by_cases h : i < s
  · simp [h, (by omega : ¬ (s ≤ i))]
  · have hfb : b.testBit i = false :=
      Nat.testBit_lt_two_pow
        (lt_of_lt_of_le hb (Nat.pow_le_pow_right (by norm_num) (by omega)))
    simp [h, hfb]

theorem lor_low_shiftRight {b s : Nat} (m : Nat) (hb : b < 2 ^ s) :
    (b ||| (m <<< s)) >>> s = m := by
  apply Nat.eq_of_testBit_eq
  intro i
  simp only [Nat.testBit_shiftRight, Nat.testBit_or, Nat.testBit_shiftLeft]
  have hfb : b.testBit (s + i) = false :=
    Nat.testBit_lt_two_pow
      (lt_of_lt_of_le hb (Nat.pow_le_pow_right (by norm_num) (by omega)))
  simp [hfb, (by omega : s ≤ s + i), (by omega : s + i - s = i)]

/-! ## Endian conversion lemmas -/

theorem from_le_loop_eq (r : Nat) : ∀ (bs : List Nat) (out i : Nat),
    from_le_loop out i r bs = out ||| (from_le_loop 0 0 r bs) <<< (8 * i) := by
  induction r with
  | zero => intro bs out i; simp [from_le_loop]
  | succ r ih =>
    intro bs out i
    cases bs with
    | nil => simp [from_le_loop]
    | cons b rest =>
      show from_le_loop (out ||| (b <<< (8 * i))) (i + 1) r rest =
        out ||| (from_le_loop (0 ||| (b <<< (8 * 0))) (0 + 1) r rest) <<< (8 * i)
      rw [ih rest (out ||| (b <<< (8 * i))) (i + 1),
        ih rest (0 ||| (b <<< (8 * 0))) (0 + 1)]
      simp only [Nat.zero_shiftLeft, Nat.mul_zero, Nat.shiftLeft_zero, Nat.zero_or,
        Nat.zero_add, Nat.mul_one]
      rw [lor_shiftLeft_distrib, ← Nat.shiftLeft_add, Nat.or_assoc]
      have harith : 8 * 1 + 8 * i = 8 * (i + 1) := by ring
      rw [harith]

theorem from_little_endian_cons (k b : Nat) (rest : List Nat) :
    from_little_endian (k + 1) (b :: rest) =
      b ||| (from_little_endian k rest) <<< 8 := by
  show from_le_loop (0 ||| (b <<< (8 * 0))) (0 + 1) k rest = _
  rw [from_le_loop_eq k rest (0 ||| (b <<< (8 * 0))) (0 + 1)]
  simp [from_little_endian]

theorem from_be_loop_eq : ∀ (bs : List Nat) (out i : Nat),
    from_be_loop out i bs = out ||| from_be_loop 0 i bs := by
  intro bs
  induction bs with
  | nil => intro out i; cases i <;> simp [from_be_loop]
  | cons b rest ih =>
    intro out i
    cases i with
    | zero => simp [from_be_loop]
    | succ i' =>
      show from_be_loop (out ||| (b <<< (8 * i'))) i' rest =
        out ||| from_be_loop (0 ||| (b <<< (8 * i'))) i' rest
      rw [ih (out ||| (b <<< (8 * i'))) i', ih (0 ||| (b <<< (8 * i'))) i']
      simp [Nat.or_assoc]

theorem from_big_endian_cons (k b : Nat) (rest : List Nat) :
    from_big_endian (k + 1) (b :: rest) =
      (b <<< (8 * k)) ||| from_big_endian k rest := by
  show from_be_loop (0 ||| (b <<< (8 * k))) k rest = _
  rw [from_be_loop_eq rest (0 ||| (b <<< (8 * k))) k]
  simp [from_big_endian]

theorem from_to_le (k : Nat) : ∀ n, from_little_endian k (to_little_endian k n) = n % 2 ^ (8 * k) := by
  induction k with
  | zero => intro n; simp [to_little_endian, from_little_endian, from_le_loop, Nat.mod_one]
  | succ k ih =>
    intro n
    simp only [to_little_endian]
    rw [from_little_endian_cons, ih (n >>> 8)]
    have h256 : (256 : Nat) = 2 ^ 8 := by norm_num
    rw [h256, byte_split n (8 * k)]
    have harith : 8 + 8 * k = 8 * (k + 1) := by ring
    rw [harith]

theorem to_little_endian_length (k : Nat) : ∀ n, (to_little_endian k n).length = k := by
  induction k with
  | zero => intro n; simp [to_little_endian]
  | succ k ih => intro n; simp [to_little_endian, ih]

theorem to_from_le : ∀ (bs : List Nat), (∀ b ∈ bs, b < 256) →
    to_little_endian bs.length (from_little_endian bs.length bs) = bs := by
  intro bs
  induction bs with
  | nil => intro _; simp [to_little_endian, from_little_endian, from_le_loop]
  | cons b rest ih =>
    intro h
    have hb : b < 2 ^ 8 := by
      have := h b (by simp)
      omega
    simp only [List.length_cons]
    rw [from_little_endian_cons]
    simp only [to_little_endian]
    have h256 : (256 : Nat) = 2 ^ 8 := by norm_num
    rw [h256, lor_low_mod _ hb, lor_low_shiftRight _ hb,
      ih (fun x hx => h x (by simp [hx]))]

theorem to_big_endian_eq_reverse (k : Nat) : ∀ n,
    to_big_endian k n = (to_little_endian k n).reverse := by
  induction k with
  | zero => intro n; simp [to_big_endian, to_little_endian]
  | succ k ih => intro n; simp [to_big_endian, to_little_endian, ih]

theorem from_little_endian_append_last : ∀ (xs : List Nat) (b : Nat),
    from_little_endian (xs.length + 1) (xs ++ [b]) =
      from_little_endian xs.length xs ||| (b <<< (8 * xs.length)) := by
  intro xs
  induction xs with
  | nil =>
    intro b
    simp [from_little_endian, from_le_loop]
  | cons x xs ih =>
    intro b
    simp only [List.cons_append, List.length_cons]
    rw [from_little_endian_cons, ih, from_little_endian_cons]
    rw [lor_shiftLeft_distrib, ← Nat.shiftLeft_add, Nat.or_assoc]
    have harith : 8 * xs.length + 8 = 8 * (xs.length + 1) := by ring
    rw [harith]

theorem from_big_eq_from_little_reverse : ∀ (bs : List Nat),
    from_big_endian bs.length bs = from_little_endian bs.length bs.reverse := by
  intro bs
  induction bs with
  | nil => simp [from_big_endian, from_little_endian, from_be_loop, from_le_loop]
  | cons b rest ih =>
    simp only [List.length_cons, List.reverse_cons]
    rw [from_big_endian_cons, ih]
    have hlen : rest.length = rest.reverse.length := by simp
    rw [hlen, from_little_endian_append_last rest.reverse b]
    rw [← hlen]
    exact Nat.or_comm _ _

theorem from_to_be (k n : Nat) :
    from_big_endian k (to_big_endian k n) = n % 2 ^ (8 * k) := by
  have hlen : (to_big_endian k n).length = k := by
    rw [to_big_endian_eq_reverse]
    simp [to_little_endian_length]
  have h1 := from_big_eq_from_little_reverse (to_big_endian k n)
  rw [hlen] at h1
  rw [h1, to_big_endian_eq_reverse, List.reverse_reverse]
  exact from_to_le k n

theorem to_from_be (bs : List Nat) (h : ∀ b ∈ bs, b < 256) :
    to_big_endian bs.length (from_big_endian bs.length bs) = bs := by
  have h1 := from_big_eq_from_little_reverse bs
  rw [h1, to_big_endian_eq_reverse]
  have hlen : bs.length = bs.reverse.length := by simp
  rw [hlen]
  rw [to_from_le bs.reverse (fun x hx => h x (List.mem_reverse.mp hx))]
  exact List.reverse_reverse bs

/-- C10: for every unsigned integer type `T` (byte width `k = sizeof(T)`) and
every value `n` of that type, `from_big_endian (to_big_endian n) = n` and
`from_little_endian (to_little_endian n) = n`; and over `k`-byte buffers the
serialize/deserialize pairs are mutually inverse in the other direction as
well. -/
theorem endian_roundtrip (k n : Nat) (bs : List Nat)
    (hn : n < 2 ^ (8 * k)) (hlen : bs.length = k) (hbytes : ∀ b ∈ bs, b < 256) :
    (from_big_endian k (to_big_endian k n) = n ∧
     from_little_endian k (to_little_endian k n) = n) ∧
    (to_big_endian k (from_big_endian k bs) = bs ∧
     to_little_endian k (from_little_endian k bs) = bs) := by
  refine ⟨⟨?_, ?_⟩, ?_, ?_⟩
  · rw [from_to_be, Nat.mod_eq_of_lt hn]
  · rw [from_to_le, Nat.mod_eq_of_lt hn]
  · rw [← hlen]
    exact to_from_be bs hbytes
  · rw [← hlen]
    exact to_from_le bs hbytes

/-- Witness for C10 at `T = uint16_t` (`k = 2`). -/
theorem endian_roundtrip_witness :
    (from_big_endian 2 (to_big_endian 2 0x1234) = 0x1234 ∧
     from_little_endian 2 (to_little_endian 2 0x1234) = 0x1234) ∧
    (to_big_endian 2 (from_big_endian 2 [0xAB, 0xCD]) = [0xAB, 0xCD] ∧
     to_little_endian 2 (from_little_endian 2 [0xAB, 0xCD]) = [0xAB, 0xCD]) :=
  endian_roundtrip 2 0x1234 [0xAB, 0xCD] (by decide) (by decide) (by decide)

/-! ## EC layer lemmas and the stealth protocol claims -/

theorem secp_order_pos : 0 < secp_order := by decide

theorem shared_secret_comm (H : Nat → Nat) (x y : Nat) :
    shared_secret H x (g_mul y) = shared_secret H y (g_mul x) := by
  unfold shared_secret g_mul
  rw [Nat.mul_comm x, Nat.mod_mul_mod, Nat.mul_comm y (x % secp_order),
    Nat.mod_mul_mod, Nat.mul_comm y x]

theorem ec_tweak_add_of_valid (a b : Nat) (hb : valid_secret b) (ha : a < secp_order) :
    ec_tweak_add a b =
      if (a + b) % secp_order = 0 then (false, a)
      else (true, (a + b) % secp_order) := by
  unfold ec_tweak_add
  rw [if_neg]
  push_neg
  exact ⟨hb.1.ne', by omega, by omega⟩

theorem uncover_stealth_secret_eq (H : Nat → Nat) (e s d : Nat) :
    uncover_stealth_secret H e s d =
      if (d + shared_secret H s e) % secp_order = 0 then none
      else some ((d + shared_secret H s e) % secp_order) := by
  unfold uncover_stealth_secret ec_add
  by_cases hr : (d + shared_secret H s e) % secp_order = 0 <;> simp [hr]

theorem initiate_stealth_eq (H : Nat → Nat) (eS scanP dP : Nat)
    (hsh : valid_secret (shared_secret H eS scanP)) (hd : dP < secp_order) :
    initiate_stealth H eS scanP dP =
      if (dP + shared_secret H eS scanP) % secp_order = 0 then none
      else some ((dP + shared_secret H eS scanP) % secp_order) := by
  simp only [initiate_stealth]
  rw [ec_tweak_add_of_valid dP _ hsh hd]
  by_cases hr : (dP + shared_secret H eS scanP) % secp_order = 0 <;> simp [hr]

/-- C1: for all valid secrets with `scan_pubkey = G·scan_secret` and
`spend_pubkey = G·spend_secret`, the sender's `initiate_stealth` and the
recipient's `uncover_stealth` return the identical point (ECDH symmetry). -/
theorem stealth_initiate_uncover_agree (H : Nat → Nat)
    (ephem_secret scan_secret spend_secret : Nat)
    (he : valid_secret ephem_secret) (hscan : valid_secret scan_secret)
    (hspend : valid_secret spend_secret) :
    initiate_stealth H ephem_secret (g_mul scan_secret) (g_mul spend_secret) =
      uncover_stealth H (g_mul ephem_secret) scan_secret (g_mul spend_secret) := by
  unfold initiate_stealth uncover_stealth
  rw [shared_secret_comm H ephem_secret scan_secret]

/-- Witness for C1 at `H = const 4`, secrets `(1, 2, 3)`. -/
theorem stealth_initiate_uncover_agree_witness :
    initiate_stealth (fun _ => 4) 1 (g_mul 2) (g_mul 3) =
      uncover_stealth (fun _ => 4) (g_mul 1) 2 (g_mul 3) :=
  stealth_initiate_uncover_agree (fun _ => 4) 1 2 3 (by decide) (by decide) (by decide)

/-- C2: under the same key relations (and a shared secret that is a valid
scalar), multiplying the generator by the scalar recovered by
`uncover_stealth_secret` yields exactly the point returned by
`initiate_stealth`: the recovered one-time private key matches the one-time
public key. -/
theorem uncover_secret_matches_public (H : Nat → Nat)
    (ephem_secret scan_secret spend_secret : Nat)
    (he : valid_secret ephem_secret) (hscan : valid_secret scan_secret)
    (hspend : valid_secret spend_secret)
    (hshared : valid_secret (shared_secret H scan_secret (g_mul ephem_secret))) :
    Option.map g_mul
        (uncover_stealth_secret H (g_mul ephem_secret) scan_secret spend_secret) =
      initiate_stealth H ephem_secret (g_mul scan_secret) (g_mul spend_secret) := by
  have hcomm := shared_secret_comm H ephem_secret scan_secret
  rw [initiate_stealth_eq H ephem_secret (g_mul scan_secret) (g_mul spend_secret)
      (by rw [hcomm]; exact hshared) (Nat.mod_lt _ secp_order_pos),
    uncover_stealth_secret_eq, hcomm]
  have hmod : (g_mul spend_secret +
        shared_secret H scan_secret (g_mul ephem_secret)) % secp_order =
      (spend_secret + shared_secret H scan_secret (g_mul ephem_secret)) % secp_order := by
    unfold g_mul
    rw [Nat.mod_add_mod]
  rw [hmod]
  by_cases hr : (spend_secret + shared_secret H scan_secret (g_mul ephem_secret)) %
      secp_order = 0
  · simp [hr]
  · rw [if_neg hr]
    simp [g_mul, Nat.mod_mod]

/-- Witness for C2 at `H = const 4`, secrets `(1, 2, 3)`. -/
theorem uncover_secret_matches_public_witness :
    Option.map g_mul (uncover_stealth_secret (fun _ => 4) (g_mul 1) 2 3) =
      initiate_stealth (fun _ => 4) 1 (g_mul 2) (g_mul 3) :=
  uncover_secret_matches_public (fun _ => 4) 1 2 3
    (by decide) (by decide) (by decide) (by decide)

/-- C5: `ec_multiply` and `ec_tweak_add` leave the point argument unchanged
whenever they return false, and on success the point holds the product
(respectively the tweaked sum). -/
theorem ec_mutation_contract (a b : Nat) :
    ((ec_multiply a b).1 = false → (ec_multiply a b).2 = a) ∧
    ((ec_multiply a b).1 = true → (ec_multiply a b).2 = (b * a) % secp_order) ∧
    ((ec_tweak_add a b).1 = false → (ec_tweak_add a b).2 = a) ∧
    ((ec_tweak_add a b).1 = true → (ec_tweak_add a b).2 = (a + b) % secp_order) := by
  unfold ec_multiply ec_tweak_add
  by_cases h1 : b = 0 ∨ secp_order ≤ b ∨ secp_order ≤ a
  · simp [h1]
  · by_cases h2 : (b * a) % secp_order = 0 <;>
      by_cases h3 : (a + b) % secp_order = 0 <;> simp [h1, h2, h3]

/-- Witness for C5: a success and a failure of each operation. -/
theorem ec_mutation_contract_witness :
    (ec_multiply 2 3).2 = (3 * 2) % secp_order ∧ (ec_multiply 2 0).2 = 2 ∧
    (ec_tweak_add 2 3).2 = (2 + 3) % secp_order ∧ (ec_tweak_add 2 0).2 = 2 :=
  ⟨(ec_mutation_contract 2 3).2.1 (by decide),
   (ec_mutation_contract 2 0).1 (by decide),
   (ec_mutation_contract 2 3).2.2.2 (by decide),
   (ec_mutation_contract 2 0).2.2.1 (by decide)⟩

/-- C9: `ec_add` computes `(a + b) mod secp_order` in place on `a` and
returns true, except that it returns false (leaving `a` unchanged) exactly
when the modular sum would be zero. -/
theorem ec_add_contract (a b : Nat) :
    ((a + b) % secp_order = 0 → ec_add a b = (false, a)) ∧
    ((a + b) % secp_order ≠ 0 → ec_add a b = (true, (a + b) % secp_order)) := by
  unfold ec_add
  constructor
  · intro h; simp [h]
  · intro h; simp [h]

/-- Witness for C9: a nonzero sum and a sum that is zero mod the order. -/
theorem ec_add_contract_witness :
    ec_add 1 2 = (true, (1 + 2) % secp_order) ∧
    ec_add secp_order 0 = (false, secp_order) :=
  ⟨(ec_add_contract 1 2).2 (by decide), (ec_add_contract secp_order 0).1 (by decide)⟩

/-- C6: `verify_checksum data` is true iff `data` has length at least 4 and
its last 4 bytes equal the first 4 bytes of the hash of all preceding bytes;
in particular it is false for every input shorter than 4 bytes. -/
theorem verify_checksum_spec (bh : List Nat → List Nat) (data : List Nat) :
    (verify_checksum bh data = true ↔
      4 ≤ data.length ∧
        data.drop (data.length - 4) = (bh (data.take (data.length - 4))).take 4) ∧
    (data.length < 4 → verify_checksum bh data = false) := by
  unfold verify_checksum checksum_bytes
  by_cases h : data.length < 4
  · rw [if_pos h]
    constructor
    · constructor
      · intro hfalse; cases hfalse
      · rintro ⟨h4, -⟩; omega
    · intro _; rfl
  · rw [if_neg h]
    constructor
    · simp [Nat.not_lt.mp h]
    · intro hlt; exact absurd hlt h

/-- Witness for C6: a 5-byte input whose tail matches the (constant) hash. -/
theorem verify_checksum_spec_witness :
    verify_checksum (fun _ => List.replicate 32 0) [5, 0, 0, 0, 0] = true :=
  (verify_checksum_spec (fun _ => List.replicate 32 0) [5, 0, 0, 0, 0]).1.2
    ⟨by decide, by decide⟩

/-! ## Base58 codec lemmas -/

theorem toDigitsFuel_eq_digits (b : Nat) (hb : 2 ≤ b) :
    ∀ fuel n, n ≤ fuel → toDigitsFuel b fuel n = Nat.digits b n := by
  intro fuel
  induction fuel with
  | zero =>
    intro n hn
    have h0 : n = 0 := Nat.le_zero.mp hn
    simp [toDigitsFuel, h0]
  | succ fuel ih =>
    intro n hn
    by_cases h0 : n = 0
    · simp [toDigitsFuel, h0]
    · have hdiv : n / b < n := Nat.div_lt_self (Nat.pos_of_ne_zero h0) (by omega)
      rw [show toDigitsFuel b (fuel + 1) n =
          if n = 0 then [] else n % b :: toDigitsFuel b fuel (n / b) from rfl]
      rw [if_neg h0, ih (n / b) (by omega),
        Nat.digits_def' (by omega : 1 < b) (Nat.pos_of_ne_zero h0)]

theorem base58_digit_char_index : ∀ d, d < 58 → base58_char_index (base58_digit_char d) = d := by
  decide

theorem base58_digit_char_mem : ∀ d, d < 58 → is_base58 (base58_digit_char d) = true := by
  decide

theorem base58_one_mem : is_base58 '1' = true := by decide

theorem base58_char_index_one : base58_char_index '1' = 0 := by decide

theorem base58_digit_char_ne_one : ∀ d, d < 58 → d ≠ 0 → base58_digit_char d ≠ '1' := by
  decide

theorem leading_zero_split : ∀ (D : List Nat),
    D = List.replicate (leading_zero_bytes D) 0 ++ D.drop (leading_zero_bytes D) := by
  intro D
  induction D with
  | nil => rfl
  | cons b rest ih =>
    by_cases hb : b = 0
    · subst hb
      rw [show leading_zero_bytes (0 :: rest) = leading_zero_bytes rest + 1 from rfl,
        List.replicate_succ]
      simp only [List.cons_append, List.drop_succ_cons, List.cons.injEq, true_and]
      exact ih
    · simp [leading_zero_bytes, hb]

theorem leading_zero_drop_head : ∀ (D : List Nat) (b : Nat),
    (D.drop (leading_zero_bytes D)).head? = some b → b ≠ 0 := by
  intro D
  induction D with
  | nil => intro b h; simp at h
  | cons c rest ih =>
    intro b h
    by_cases hc : c = 0
    · subst hc
      rw [show leading_zero_bytes (0 :: rest) = leading_zero_bytes rest + 1 from rfl,
        List.drop_succ_cons] at h
      exact ih b h
    · simp [leading_zero_bytes, hc] at h
      omega

theorem leading_one_chars_replicate : ∀ (k : Nat) (s : List Char),
    leading_one_chars (List.replicate k '1' ++ s) = k + leading_one_chars s := by
  intro k
  induction k with
  | zero => intro s; simp
  | succ k ih =>
    intro s
    rw [List.replicate_succ, List.cons_append,
      show leading_one_chars ('1' :: (List.replicate k '1' ++ s)) =
        leading_one_chars (List.replicate k '1' ++ s) + 1 from rfl,
      ih s]
    omega

theorem leading_one_chars_eq_zero (s : List Char)
    (h : ∀ c, s.head? = some c → c ≠ '1') : leading_one_chars s = 0 := by
  cases s with
  | nil => rfl
  | cons c rest =>
    have hc : c ≠ '1' := h c rfl
    simp [leading_one_chars, hc]

theorem foldl_58_replicate_one : ∀ (k : Nat) (s : List Char),
    List.foldl (fun a c => a * 58 + base58_char_index c) 0 (List.replicate k '1' ++ s) =
      List.foldl (fun a c => a * 58 + base58_char_index c) 0 s := by
  intro k
  induction k with
  | zero => intro s; simp
  | succ k ih =>
    intro s
    rw [List.replicate_succ, List.cons_append, List.foldl_cons, base58_char_index_one]
    simpa using ih s

theorem foldl_58_digits : ∀ (L : List Nat) (acc : Nat), (∀ d ∈ L, d < 58) →
    List.foldl (fun a c => a * 58 + base58_char_index c) acc
        (L.reverse.map base58_digit_char) =
      acc * 58 ^ L.length + Nat.ofDigits 58 L := by
  intro L
  induction L with
  | nil => intro acc _; simp [Nat.ofDigits_nil]
  | cons d L ih =>
    intro acc h
    simp only [List.reverse_cons, List.map_append, List.map_cons, List.map_nil]
    rw [List.foldl_append, ih acc (fun x hx => h x (by simp [hx]))]
    simp only [List.foldl_cons, List.foldl_nil]
    rw [base58_digit_char_index d (h d (by simp))]
    rw [Nat.ofDigits_cons]
    simp only [List.length_cons, pow_succ]
    ring

theorem ofDigits_replicate_zero (b : Nat) : ∀ k, Nat.ofDigits b (List.replicate k 0) = 0 := by
  intro k
  induction k with
  | zero => rfl
  | succ k ih => rw [List.replicate_succ, Nat.ofDigits_cons, ih]; simp

theorem bytes_to_nat_replicate_prefix (k : Nat) (R : List Nat) :
    bytes_to_nat (List.replicate k 0 ++ R) = Nat.ofDigits 256 R.reverse := by
  unfold bytes_to_nat
  rw [List.reverse_append, List.reverse_replicate, Nat.ofDigits_append,
    ofDigits_replicate_zero]
  simp

theorem leading_zero_bytes_replicate (k : Nat) (R : List Nat)
    (hhead : ∀ b, R.head? = some b → b ≠ 0) :
    leading_zero_bytes (List.replicate k 0 ++ R) = k := by
  induction k with
  | zero =>
    cases R with
    | nil => rfl
    | cons r R' => simp [leading_zero_bytes, hhead r rfl]
  | succ k ih =>
    rw [List.replicate_succ, List.cons_append,
      show leading_zero_bytes (0 :: (List.replicate k 0 ++ R)) =
        leading_zero_bytes (List.replicate k 0 ++ R) + 1 from rfl,
      ih]

theorem decode_encode_aux (k : Nat) (R : List Nat) (hR : ∀ b ∈ R, b < 256)
    (hhead : ∀ b, R.head? = some b → b ≠ 0) :
    decode_base58 (encode_base58 (List.replicate k 0 ++ R)) =
      some (List.replicate k 0 ++ R) := by
  have hlzb := leading_zero_bytes_replicate k R hhead
  have hval := bytes_to_nat_replicate_prefix k R
  cases R with
  | nil =>
    have henc : encode_base58 (List.replicate k 0 ++ []) = List.replicate k '1' := by
      simp only [encode_base58]
      rw [hlzb, hval]
      simp [toDigitsFuel]
    rw [henc]
    have hall : (List.replicate k '1').all is_base58 = true := by
      simp only [List.all_eq_true]
      intro x hx
      rw [List.eq_of_mem_replicate hx]
      exact base58_one_mem
    simp only [decode_base58]
    rw [if_pos hall]
    have hlead : leading_one_chars (List.replicate k '1') = k := by
      have h := leading_one_chars_replicate k []
      simpa using h
    have hfold : List.foldl (fun a c => a * 58 + base58_char_index c) 0
        (List.replicate k '1') = 0 := by
      have h := foldl_58_replicate_one k []
      simpa using h
    rw [hlead, hfold]
    simp [toDigitsFuel]
  | cons r R' =>
    have hr0 : r ≠ 0 := hhead r rfl
    set n := Nat.ofDigits 256 ((r :: R').reverse) with hn
    have hlast : ∀ h : (r :: R').reverse ≠ [], ((r :: R').reverse).getLast h ≠ 0 := by
      intro hne
      have h1 : ((r :: R').reverse).getLast? = some r := by
        rw [List.getLast?_reverse]
        rfl
      have h2 := List.getLast?_eq_getLast _ hne
      rw [h2] at h1
      injection h1 with h3
      rw [h3]
      exact hr0
    have helts : ∀ l ∈ (r :: R').reverse, l < 256 := fun l hl => hR l (List.mem_reverse.mp hl)
    have hdig : Nat.digits 256 n = (r :: R').reverse :=
      Nat.digits_ofDigits 256 (by norm_num) _ helts hlast
    have hn0 : n ≠ 0 := by
      intro h0
      rw [h0, Nat.digits_zero] at hdig
      exact absurd hdig.symm (by simp)
    have hd58 : toDigitsFuel 58 n n = Nat.digits 58 n :=
      toDigitsFuel_eq_digits 58 (by norm_num) n n le_rfl
    have hLlt : ∀ d ∈ Nat.digits 58 n, d < 58 := fun d hd =>
      Nat.digits_lt_base (by norm_num) hd
    have hLne : Nat.digits 58 n ≠ [] := Nat.digits_ne_nil_iff_ne_zero.mpr hn0
    have hLlast : (Nat.digits 58 n).getLast hLne ≠ 0 := Nat.getLast_digit_ne_zero 58 hn0
    have henc : encode_base58 (List.replicate k 0 ++ (r :: R')) =
        List.replicate k '1' ++ (Nat.digits 58 n).reverse.map base58_digit_char := by
      simp only [encode_base58]
      rw [hlzb, hval, hd58]
    rw [henc]
    have hall : (List.replicate k '1' ++
        (Nat.digits 58 n).reverse.map base58_digit_char).all is_base58 = true := by
      simp only [List.all_append, Bool.and_eq_true, List.all_eq_true]
      constructor
      · intro x hx
        rw [List.eq_of_mem_replicate hx]
        exact base58_one_mem
      · intro x hx
        obtain ⟨d, hd, rfl⟩ := List.mem_map.mp hx
        exact base58_digit_char_mem d (hLlt d (List.mem_reverse.mp hd))
    simp only [decode_base58]
    rw [if_pos hall]
    have hM0 : leading_one_chars ((Nat.digits 58 n).reverse.map base58_digit_char) = 0 := by
      apply leading_one_chars_eq_zero
      intro c hc
      rw [List.head?_map, List.head?_reverse, List.getLast?_eq_getLast _ hLne] at hc
      simp only [Option.map_some'] at hc
      rw [← Option.some_inj.mp hc]
      exact base58_digit_char_ne_one _ (hLlt _ (List.getLast_mem hLne)) hLlast
    have hlead : leading_one_chars (List.replicate k '1' ++
        (Nat.digits 58 n).reverse.map base58_digit_char) = k := by
      rw [leading_one_chars_replicate, hM0]
      omega
    have hfold : List.foldl (fun a c => a * 58 + base58_char_index c) 0
        (List.replicate k '1' ++ (Nat.digits 58 n).reverse.map base58_digit_char) = n := by
      rw [foldl_58_replicate_one, foldl_58_digits _ 0 hLlt, Nat.ofDigits_digits]
      simp
    rw [hlead, hfold, toDigitsFuel_eq_digits 256 (by norm_num) n n le_rfl, hdig,
      List.reverse_reverse]

theorem decode_encode_base58 (D : List Nat) (hD : ∀ b ∈ D, b < 256) :
    decode_base58 (encode_base58 D) = some D := by
  have h := decode_encode_aux (leading_zero_bytes D) (D.drop (leading_zero_bytes D))
    (fun b hb => hD b (List.mem_of_mem_drop hb)) (leading_zero_drop_head D)
  rwa [← leading_zero_split D] at h

theorem verify_checksum_append (bh : List Nat → List Nat) (data : List Nat)
    (h4 : 4 ≤ (bh data).length) :
    verify_checksum bh (append_checksum bh data) = true := by
  unfold verify_checksum append_checksum checksum_bytes
  have hcl : ((bh data).take 4).length = 4 := by
    rw [List.length_take]
    omega
  have hlen : (data ++ (bh data).take 4).length = data.length + 4 := by
    rw [List.length_append, hcl]
  rw [if_neg (by omega)]
  have hdt : data.length + 4 - 4 = data.length := by omega
  rw [hlen, hdt, List.drop_left' rfl, List.take_left' rfl]
  simp

/-! ## Address layer lemmas -/

theorem payment_roundtrip (bh : List Nat → List Nat) (hbh : valid_hash_fn bh)
    (a : payment_address) (ha : valid_payment a) (a0 : payment_address) :
    payment_set_encoded bh a0 (payment_encoded bh a) = (true, a) := by
  obtain ⟨hv, hlen, hbytes⟩ := ha
  have hbh1 := hbh (a.version_ :: a.hash_)
  have hck_len : (checksum_bytes bh (a.version_ :: a.hash_)).length = 4 := by
    unfold checksum_bytes
    rw [List.length_take, hbh1.1]
    norm_num
  have hD : ∀ b ∈ append_checksum bh (a.version_ :: a.hash_), b < 256 := by
    intro b hb
    unfold append_checksum at hb
    rcases List.mem_append.mp hb with h | h
    · rcases List.mem_cons.mp h with h | h
      · omega
      · exact hbytes b h
    · exact hbh1.2 b (List.mem_of_mem_take h)
  have hdec := decode_encode_base58 _ hD
  have hdlen : (append_checksum bh (a.version_ :: a.hash_)).length = 25 := by
    unfold append_checksum
    rw [List.length_append, hck_len, List.length_cons, hlen]
  have hverify : verify_checksum bh (append_checksum bh (a.version_ :: a.hash_)) = true :=
    verify_checksum_append bh _ (by rw [hbh1.1]; norm_num)
  simp only [payment_set_encoded, payment_encoded, hdec]
  rw [if_pos hdlen, if_pos hverify]
  have h1 : (append_checksum bh (a.version_ :: a.hash_)).getD 0 0 = a.version_ := by
    unfold append_checksum
    rfl
  have h2 : ((append_checksum bh (a.version_ :: a.hash_)).drop 1).take 20 = a.hash_ := by
    unfold append_checksum
    rw [List.cons_append, List.drop_succ_cons, List.drop_zero, List.take_left' hlen]
  rw [h1, h2]

theorem to_big_endian_length : ∀ (k n : Nat), (to_big_endian k n).length = k := by
  intro k
  induction k with
  | zero => intro n; rfl
  | succ k ih => intro n; simp [to_big_endian, ih]

theorem to_big_endian_lt : ∀ (k n : Nat), ∀ b ∈ to_big_endian k n, b < 256 := by
  intro k
  induction k with
  | zero => intro n b hb; simp [to_big_endian] at hb
  | succ k ih =>
    intro n b hb
    simp only [to_big_endian] at hb
    rcases List.mem_append.mp hb with h | h
    · exact ih (n >>> 8) b h
    · have hb' : b = n % 256 := by simpa using h
      omega

theorem parse_points_append : ∀ (spends : List (List Nat)) (rest : List Nat),
    (∀ p ∈ spends, p.length = 33) →
    parse_points spends.length (spends.flatten ++ rest) = some (spends, rest) := by
  intro spends
  induction spends with
  | nil => intro rest _; rfl
  | cons p spends ih =>
    intro rest h
    have hp : p.length = 33 := h p (by simp)
    simp only [List.flatten_cons, List.length_cons]
    rw [List.append_assoc]
    show parse_points (spends.length + 1) (p ++ (spends.flatten ++ rest)) = _
    simp only [parse_points]
    rw [if_neg (by rw [List.length_append, hp]; omega)]
    rw [List.drop_left' hp, List.take_left' hp]
    rw [ih rest (fun q hq => h q (by simp [hq]))]

theorem stealth_roundtrip (bh : List Nat → List Nat) (hbh : valid_hash_fn bh)
    (sa : stealth_address) (hsa : valid_stealth sa) (sa0 : stealth_address) :
    stealth_set_encoded bh sa0 (stealth_encoded bh sa) = (true, sa) := by
  obtain ⟨opts, scan, spends, nsig, pfx0⟩ := sa
  obtain ⟨nb, bf⟩ := pfx0
  obtain ⟨ho, hscanlen, hscanb, hcnt1, hcnt255, hspends, hnsig, hnsig255, hnb, hbf⟩ := hsa
  simp only [stealth_set_encoded, stealth_encoded]
  set body := stealth_version_byte :: opts ::
    (scan ++ (spends.length :: spends.flatten) ++ (nsig :: nb :: to_big_endian 4 bf))
    with hbody
  have hbh1 := hbh body
  have hck_len : (checksum_bytes bh body).length = 4 := by
    unfold checksum_bytes
    rw [List.length_take, hbh1.1]
    norm_num
  have hD : ∀ b ∈ append_checksum bh body, b < 256 := by
    intro b hb
    unfold append_checksum at hb
    rcases List.mem_append.mp hb with h | h
    · rw [hbody] at h
      rcases List.mem_cons.mp h with h | h
      · rw [h]; norm_num [stealth_version_byte]
      rcases List.mem_cons.mp h with h | h
      · rw [h]; exact ho
      rcases List.mem_append.mp h with h | h
      · rcases List.mem_append.mp h with h | h
        · exact hscanb b h
        · rcases List.mem_cons.mp h with h | h
          · rw [h]; exact hcnt255
          · obtain ⟨p, hp, hbp⟩ := List.mem_flatten.mp h
            exact (hspends p hp).2 b hbp
      · rcases List.mem_cons.mp h with h | h
        · rw [h]; exact hnsig255
        rcases List.mem_cons.mp h with h | h
        · rw [h]; exact hnb
        · exact to_big_endian_lt 4 bf b h
    · exact hbh1.2 b (List.mem_of_mem_take h)
  have hdec := decode_encode_base58 _ hD
  have hverify := verify_checksum_append bh body (by rw [hbh1.1]; norm_num)
  have hlen_app : (append_checksum bh body).length = body.length + 4 := by
    unfold append_checksum
    rw [List.length_append, hck_len]
  have htake : (append_checksum bh body).take ((append_checksum bh body).length - 4) =
      body := by
    rw [hlen_app]
    have h4 : body.length + 4 - 4 = body.length := by omega
    rw [h4]
    unfold append_checksum
    exact List.take_left' rfl
  have hassoc : scan ++ (spends.length :: spends.flatten) ++
      (nsig :: nb :: to_big_endian 4 bf) =
      scan ++ ((spends.length :: spends.flatten) ++ (nsig :: nb :: to_big_endian 4 bf)) :=
    List.append_assoc _ _ _
  have hparse : parse_stealth body = some ⟨opts, scan, spends, nsig, ⟨nb, bf⟩⟩ := by
    rw [hbody]
    have hge : ¬ ((scan ++ (spends.length :: spends.flatten) ++
        (nsig :: nb :: to_big_endian 4 bf)).length < 34) := by
      simp only [List.length_append, List.length_cons, hscanlen]
      omega
    have hdrop : (scan ++ (spends.length :: spends.flatten) ++
        (nsig :: nb :: to_big_endian 4 bf)).drop 33 =
        spends.length :: (spends.flatten ++ (nsig :: nb :: to_big_endian 4 bf)) := by
      rw [hassoc, List.drop_left' hscanlen, List.cons_append]
    have htake33 : (scan ++ (spends.length :: spends.flatten) ++
        (nsig :: nb :: to_big_endian 4 bf)).take 33 = scan := by
      rw [hassoc]
      exact List.take_left' hscanlen
    have hpp := parse_points_append spends (nsig :: nb :: to_big_endian 4 bf)
      (fun p hp => (hspends p hp).1)
    have hlen4 : (to_big_endian 4 bf).length = 4 := to_big_endian_length 4 bf
    have hfb : from_big_endian 4 (to_big_endian 4 bf) = bf := by
      rw [from_to_be, Nat.mod_eq_of_lt]
      exact lt_of_lt_of_le hbf (by norm_num)
    simp only [parse_stealth]
    rw [if_pos trivial, if_neg hge, hdrop]
    simp only [hpp]
    rw [htake33]
    simp only [hlen4]
    rw [if_pos ⟨trivial, hnsig⟩, hfb]
  rw [hdec]
  show (if verify_checksum bh (append_checksum bh body) = true then _ else _) = _
  rw [if_pos hverify, htake, hparse]

theorem parse_points_length : ∀ (c : Nat) (bs : List Nat) (ps : List (List Nat)) (r : List Nat),
    parse_points c bs = some (ps, r) → ps.length = c := by
  intro c
  induction c with
  | zero =>
    intro bs ps r h
    simp only [parse_points, Option.some_inj, Prod.mk.injEq] at h
    rw [← h.1]
    rfl
  | succ c ih =>
    intro bs ps r h
    simp only [parse_points] at h
    by_cases hlen : bs.length < 33
    · rw [if_pos hlen] at h
      cases h
    · rw [if_neg hlen] at h
      cases hpp : parse_points c (bs.drop 33) with
      | none =>
        simp only [hpp] at h
        cases h
      | some pr =>
        obtain ⟨ps', rest⟩ := pr
        simp only [hpp, Option.some_inj, Prod.mk.injEq] at h
        rw [← h.1, List.length_cons, ih (bs.drop 33) ps' rest hpp]

theorem range32_hash_valid : valid_hash_fn (fun _ => List.range 32) := by
  intro x
  constructor
  · simp
  · intro b hb
    simp only [List.mem_range] at hb
    omega

/-- C3: for every valid `payment_address` and valid `stealth_address` value,
encoding with `encoded()` and then decoding the resulting string with
`set_encoded` succeeds and reconstructs a value equal to the original. -/
theorem address_codec_roundtrip (bh : List Nat → List Nat) (hbh : valid_hash_fn bh)
    (pa : payment_address) (hpa : valid_payment pa)
    (sa : stealth_address) (hsa : valid_stealth sa)
    (pa0 : payment_address) (sa0 : stealth_address) :
    payment_set_encoded bh pa0 (payment_encoded bh pa) = (true, pa) ∧
    stealth_set_encoded bh sa0 (stealth_encoded bh sa) = (true, sa) :=
  ⟨payment_roundtrip bh hbh pa hpa pa0, stealth_roundtrip bh hbh sa hsa sa0⟩

/-- Witness for C3: a concrete payment address and a concrete stealth address
round-trip through a concrete 32-byte hash black box. -/
theorem address_codec_roundtrip_witness :
    payment_set_encoded (fun _ => List.range 32) payment_address_default
        (payment_encoded (fun _ => List.range 32) ⟨0x41, List.replicate 20 7⟩) =
      (true, ⟨0x41, List.replicate 20 7⟩) ∧
    stealth_set_encoded (fun _ => List.range 32) stealth_address_default
        (stealth_encoded (fun _ => List.range 32)
          ⟨5, List.replicate 33 2, [List.replicate 33 3], 1, ⟨8, 43981⟩⟩) =
      (true, ⟨5, List.replicate 33 2, [List.replicate 33 3], 1, ⟨8, 43981⟩⟩) :=
  address_codec_roundtrip (fun _ => List.range 32) range32_hash_valid
    ⟨0x41, List.replicate 20 7⟩ (by decide)
    ⟨5, List.replicate 33 2, [List.replicate 33 3], 1, ⟨8, 43981⟩⟩ (by decide)
    payment_address_default stealth_address_default

theorem parse_points_consumes : ∀ (c : Nat) (bs : List Nat) (ps : List (List Nat)) (r : List Nat),
    parse_points c bs = some (ps, r) → bs.length = 33 * c + r.length := by
  intro c
  induction c with
  | zero =>
    intro bs ps r h
    simp only [parse_points, Option.some_inj, Prod.mk.injEq] at h
    rw [← h.2]
    omega
  | succ c ih =>
    intro bs ps r h
    simp only [parse_points] at h
    by_cases hlen : bs.length < 33
    · rw [if_pos hlen] at h
      cases h
    · rw [if_neg hlen] at h
      cases hpp : parse_points c (bs.drop 33) with
      | none =>
        simp only [hpp] at h
        cases h
      | some pr =>
        obtain ⟨ps', rest⟩ := pr
        simp only [hpp, Option.some_inj, Prod.mk.injEq] at h
        have hd := ih (bs.drop 33) ps' rest hpp
        have hdl : (bs.drop 33).length = bs.length - 33 := by simp
        rw [← h.2]
        omega

/-- C4: the stealth decoder validates internal consistency of the decoded
payload.  A successful parse always satisfies `number_signatures ≤
spend_pubkeys.length`; a successful parse of a payload `version :: options ::
rest` always returns exactly as many spend pubkeys as the declared count byte
(`(rest.drop 33).head?`); whenever the bytes actually present after the count
byte are not exactly `33 × count` key bytes followed by the 6 trailing bytes
(the stream-level meaning of "actual count differs from the declared count
byte"), the parse is rejected; and the concrete payload declaring
`signature_threshold = 2` with only 1 spend pubkey is rejected, leaving the
address unchanged. -/
theorem stealth_decode_consistency :
    (∀ (body : List Nat) (a : stealth_address), parse_stealth body = some a →
      a.number_signatures ≤ a.spend_pubkeys.length) ∧
    (∀ (v o : Nat) (rest : List Nat) (a : stealth_address),
      parse_stealth (v :: o :: rest) = some a →
      (rest.drop 33).head? = some a.spend_pubkeys.length) ∧
    (∀ (v o count : Nat) (rest : List Nat),
      (rest.drop 33).head? = some count →
      (rest.drop 34).length ≠ 33 * count + 6 →
      parse_stealth (v :: o :: rest) = none) ∧
    (stealth_set_encoded (fun _ => List.range 32) stealth_address_default
        (encode_base58 (append_checksum (fun _ => List.range 32)
          (stealth_version_byte :: 0 :: (List.replicate 33 2 ++
            (1 :: List.replicate 33 3) ++ (2 :: 0 :: [0, 0, 0, 0]))))) =
      (false, stealth_address_default)) := by
  refine ⟨?_, ?_, ?_, ?_⟩
  · intro body a h
    cases body with
    | nil => simp [parse_stealth] at h
    | cons v rest0 =>
      cases rest0 with
      | nil => simp [parse_stealth] at h
      | cons o rest =>
        simp only [parse_stealth] at h
        by_cases hv : v = stealth_version_byte
        · rw [if_pos hv] at h
          by_cases hlen : rest.length < 34
          · rw [if_pos hlen] at h
            cases h
          · rw [if_neg hlen] at h
            cases hdr : rest.drop 33 with
            | nil =>
              simp only [hdr] at h
              cases h
            | cons count rest2 =>
              simp only [hdr] at h
              cases hpp : parse_points count rest2 with
              | none =>
                simp only [hpp] at h
                cases h
              | some pr =>
                obtain ⟨spends, rest3⟩ := pr
                simp only [hpp] at h
                obtain hl := parse_points_length count rest2 spends rest3 hpp
                split at h
                · rename_i rest3x threshold nbits rest4
                  split at h
                  · rename_i hc
                    injection h with h1
                    rw [← h1]
                    show threshold ≤ spends.length
                    omega
                  · cases h
                · cases h
        · rw [if_neg hv] at h
          cases h
  · intro v o rest a h
    simp only [parse_stealth] at h
    by_cases hv : v = stealth_version_byte
    · rw [if_pos hv] at h
      by_cases hlen : rest.length < 34
      · rw [if_pos hlen] at h
        cases h
      · rw [if_neg hlen] at h
        cases hdr : rest.drop 33 with
        | nil =>
          simp only [hdr] at h
          cases h
        | cons count rest2 =>
          simp only [hdr] at h
          cases hpp : parse_points count rest2 with
          | none =>
            simp only [hpp] at h
            cases h
          | some pr =>
            obtain ⟨spends, rest3⟩ := pr
            simp only [hpp] at h
            obtain hl := parse_points_length count rest2 spends rest3 hpp
            split at h
            · split at h
              · injection h with h1
                rw [← h1]
                show some count = some spends.length
                rw [hl]
              · cases h
            · cases h
    · rw [if_neg hv] at h
      cases h
  · intro v o count rest hcount hmis
    simp only [parse_stealth]
    by_cases hv : v = stealth_version_byte
    · rw [if_pos hv]
      by_cases hlen : rest.length < 34
      · rw [if_pos hlen]
      · rw [if_neg hlen]
        cases hdr : rest.drop 33 with
        | nil => simp only [hdr]
        | cons c' rest2 =>
          rw [hdr] at hcount
          simp only [List.head?_cons, Option.some_inj] at hcount
          rw [← hcount] at hmis
          have hdd : rest.drop 34 = rest2 := by
            rw [show (34 : Nat) = 33 + 1 from rfl, ← List.drop_drop, hdr]
            simp
          simp only [hdr]
          cases hpp : parse_points c' rest2 with
          | none => simp only [hpp]
          | some pr =>
            obtain ⟨spends, rest3⟩ := pr
            simp only [hpp]
            rcases rest3 with - | ⟨threshold, rest3x⟩
            · simp
            · rcases rest3x with - | ⟨nbits, rest4⟩
              · simp
              · have hcons := parse_points_consumes c' rest2 spends
                  (threshold :: nbits :: rest4) hpp
                have hne : ¬ (rest4.length = 4 ∧ threshold ≤ c') := by
                  rintro ⟨h4, -⟩
                  apply hmis
                  rw [hdd]
                  have hlen3 : (threshold :: nbits :: rest4).length = rest4.length + 2 := by
                    simp only [List.length_cons]
                  omega
                show (if rest4.length = 4 ∧ threshold ≤ c' then
                    some (⟨o, rest.take 33, spends, threshold,
                      ⟨nbits, from_big_endian 4 rest4⟩⟩ : stealth_address)
                  else none) = none
                exact if_neg hne
    · rw [if_neg hv]
  · have hD : ∀ b ∈ append_checksum (fun _ => List.range 32)
        (stealth_version_byte :: 0 :: (List.replicate 33 2 ++
          (1 :: List.replicate 33 3) ++ (2 :: 0 :: [0, 0, 0, 0]))), b < 256 := by decide
    have hdec := decode_encode_base58 _ hD
    have hver := verify_checksum_append (fun _ => List.range 32)
      (stealth_version_byte :: 0 :: (List.replicate 33 2 ++
        (1 :: List.replicate 33 3) ++ (2 :: 0 :: [0, 0, 0, 0]))) (by decide)
    simp only [stealth_set_encoded, hdec]
    rw [if_pos hver]
    have htk : (append_checksum (fun _ => List.range 32)
        (stealth_version_byte :: 0 :: (List.replicate 33 2 ++
          (1 :: List.replicate 33 3) ++ (2 :: 0 :: [0, 0, 0, 0])))).take
        ((append_checksum (fun _ => List.range 32)
          (stealth_version_byte :: 0 :: (List.replicate 33 2 ++
            (1 :: List.replicate 33 3) ++ (2 :: 0 :: [0, 0, 0, 0])))).length - 4) =
        stealth_version_byte :: 0 :: (List.replicate 33 2 ++
          (1 :: List.replicate 33 3) ++ (2 :: 0 :: [0, 0, 0, 0])) := by decide
    rw [htk]
    have hpar : parse_stealth (stealth_version_byte :: 0 :: (List.replicate 33 2 ++
        (1 :: List.replicate 33 3) ++ (2 :: 0 :: [0, 0, 0, 0]))) = none := by decide
    simp only [hpar]

/-- Witness for C4: a successfully parsed concrete payload satisfies the
threshold invariant, and a concrete payload declaring 2 spend pubkeys while
carrying the bytes of only 1 is rejected. -/
theorem stealth_decode_consistency_witness :
    ((⟨0, List.replicate 33 2, [List.replicate 33 3], 1, ⟨0, 0⟩⟩ :
      stealth_address).number_signatures ≤
      (⟨0, List.replicate 33 2, [List.replicate 33 3], 1, ⟨0, 0⟩⟩ :
        stealth_address).spend_pubkeys.length) ∧
    parse_stealth (stealth_version_byte :: 0 :: (List.replicate 33 2 ++
      (2 :: List.replicate 33 3) ++ (1 :: 0 :: [0, 0, 0, 0]))) = none :=
  ⟨stealth_decode_consistency.1
    (stealth_version_byte :: 0 :: (List.replicate 33 2 ++ (1 :: List.replicate 33 3) ++
      (1 :: 0 :: [0, 0, 0, 0])))
    ⟨0, List.replicate 33 2, [List.replicate 33 3], 1, ⟨0, 0⟩⟩ (by decide),
   stealth_decode_consistency.2.2.1 stealth_version_byte 0 2
    (List.replicate 33 2 ++ (2 :: List.replicate 33 3) ++ (1 :: 0 :: [0, 0, 0, 0]))
    (by decide) (by decide)⟩

/-- C7: a default-constructed `payment_address` carries the invalid version
sentinel and the null hash; every failed `set_encoded` call leaves the
address exactly as it was — in particular any decoded payload of the wrong
total length is rejected and leaves a default-constructed address at the
invalid sentinel; `set()` or a successful `set_encoded` are the only ways to
populate the fields. -/
theorem payment_lifecycle :
    (payment_address_default.version_ = invalid_version ∧
     payment_address_default.hash_ = null_short_hash) ∧
    (∀ (bh : List Nat → List Nat) (a : payment_address) (text : List Char),
      (payment_set_encoded bh a text).1 = false → (payment_set_encoded bh a text).2 = a) ∧
    (∀ (bh : List Nat → List Nat) (text : List Char) (bytes : List Nat),
      decode_base58 text = some bytes → bytes.length ≠ 25 →
      payment_set_encoded bh payment_address_default text =
        (false, payment_address_default)) := by
  refine ⟨⟨rfl, rfl⟩, ?_, ?_⟩
  · intro bh a text h
    cases hdec : decode_base58 text with
    | none => simp [payment_set_encoded, hdec]
    | some bytes =>
      simp only [payment_set_encoded, hdec] at h ⊢
      by_cases h25 : bytes.length = 25
      · by_cases hv : verify_checksum bh bytes = true
        · simp [h25, hv] at h
        · simp [h25, hv]
      · simp [h25]
  · intro bh text bytes hdec h25
    simp [payment_set_encoded, hdec, h25]

/-- Witness for C7: a one-character string decodes to a 1-byte payload of the
wrong length and is rejected, leaving the default (invalid) address. -/
theorem payment_lifecycle_witness :
    payment_set_encoded (fun _ => List.range 32) payment_address_default ['1'] =
      (false, payment_address_default) :=
  payment_lifecycle.2.2 (fun _ => List.range 32) ['1'] [0] (by decide) (by decide)

/-- C8: `secret_to_wif` produces the base58check encoding of
`version_byte(1) || secret(32) || [0x01 if compressed] || checksum(4)` — the
trailing `0x01` is appended exactly when `compressed` is true — and encoding
a 32-byte secret with compressed=true then decoding recovers the original
secret together with a compressed flag of true. -/
theorem wif_encode_decode (bh : List Nat → List Nat) (hbh : valid_hash_fn bh)
    (secret : List Nat) (hslen : secret.length = 32) (hsb : ∀ b ∈ secret, b < 256)
    (compressed : Bool) :
    secret_to_wif bh secret compressed =
      encode_base58 (append_checksum bh
        (wif_version :: (secret ++ (if compressed then [1] else [])))) ∧
    wif_to_secret bh (secret_to_wif bh secret true) = some (secret, true) := by
  constructor
  · rfl
  · have henc : secret_to_wif bh secret true =
        encode_base58 (append_checksum bh (wif_version :: (secret ++ [1]))) := rfl
    rw [henc]
    have hbh1 := hbh (wif_version :: (secret ++ [1]))
    have hD : ∀ b ∈ append_checksum bh (wif_version :: (secret ++ [1])), b < 256 := by
      intro b hb
      unfold append_checksum at hb
      rcases List.mem_append.mp hb with h | h
      · rcases List.mem_cons.mp h with h | h
        · rw [h]; norm_num [wif_version]
        · rcases List.mem_append.mp h with h | h
          · exact hsb b h
          · have : b = 1 := by simpa using h
            omega
      · exact hbh1.2 b (List.mem_of_mem_take h)
    have hdec := decode_encode_base58 _ hD
    have hver := verify_checksum_append bh (wif_version :: (secret ++ [1]))
      (by rw [hbh1.1]; norm_num)
    have hck_len : (checksum_bytes bh (wif_version :: (secret ++ [1]))).length = 4 := by
      unfold checksum_bytes
      rw [List.length_take, hbh1.1]
      norm_num
    have hlen_app : (append_checksum bh (wif_version :: (secret ++ [1]))).length =
        (wif_version :: (secret ++ [1])).length + 4 := by
      unfold append_checksum
      rw [List.length_append, hck_len]
    have htk : (append_checksum bh (wif_version :: (secret ++ [1]))).take
        ((append_checksum bh (wif_version :: (secret ++ [1]))).length - 4) =
        wif_version :: (secret ++ [1]) := by
      rw [hlen_app]
      have h4 : (wif_version :: (secret ++ [1])).length + 4 - 4 =
          (wif_version :: (secret ++ [1])).length := by omega
      rw [h4]
      unfold append_checksum
      exact List.take_left' rfl
    have hrest_len : (secret ++ [1]).length = 33 := by
      rw [List.length_append, hslen]
      rfl
    simp only [wif_to_secret, hdec]
    rw [if_pos hver]
    simp only [htk]
    rw [if_pos trivial]
    rw [if_neg (by rw [hrest_len]; omega)]
    rw [if_pos ⟨hrest_len, List.getLast?_concat secret⟩]
    rw [List.take_left' hslen]

/-- Witness for C8: the spec scenario — the 32-byte secret of `0x01` bytes,
compressed=true, encodes and decodes back to itself with the flag true. -/
theorem wif_encode_decode_witness :
    wif_to_secret (fun _ => List.range 32)
        (secret_to_wif (fun _ => List.range 32) (List.replicate 32 1) true) =
      some (List.replicate 32 1, true) :=
  (wif_encode_decode (fun _ => List.range 32) range32_hash_valid
    (List.replicate 32 1) (by decide) (by decide) true).2
